import Mathlib

/-!
Verification of the hybrid cloud storage manager.

Namespace Client embeds the frontend file-management code
(src/frontend/src/hooks/useFileManagement.js, src/frontend/src/utils/fetchWithAuth.js,
src/frontend/src/utils/fileUtils.js, src/frontend/src/components/FileDetailsModal.jsx,
src/frontend/src/components/FilesList.jsx) as pure functions: JSON payloads are
modelled as opaque strings, ISO timestamps as epoch milliseconds, and absent or
falsy JS fields as Option.none.

Namespace Core models the storage orchestrator backend the spec describes
(ingestion pipeline, secondary-sync worker, URL lifecycle manager, analysis
queue, deletion); its code is not among the repository's visible sources, so
those definitions are modelled from the spec.
-/

namespace Client

/-- Structured AI analysis result attached to a file record
(the ai_analysis object of the wire contract). -/
structure AiAnalysis where
  summary : Option String := none
  caption : Option String := none
  keywords : List String := []
  analysis_date : Option String := none
deriving DecidableEq

/-- A file record as the frontend sees it: the fields of the JSON the backend
returns that the embedded functions read, plus the client-kept lastRefreshedAt
timestamp (epoch milliseconds; none models a missing or falsy field). -/
structure ClientFile where
  filename : String
  status : Option String := none
  lastRefreshedAt : Option Int := none
  minio_preview_url : Option String := none
  minio_download_url : Option String := none
  s3_preview_url : Option String := none
  s3_download_url : Option String := none
  ai_analysis : Option AiAnalysis := none
  ai_analysis_status : Option String := none
  virus_name : Option String := none
deriving DecidableEq

/-- JS truthiness of a string-valued field: present and nonempty. -/
def truthyStr (s : Option String) : Bool :=
  match s with
  | none => false
  | some v => decide (v ≠ "")

/-- useFileManagement.js, isUrlExpired (lines 17-23): URLs count as expired when
more than 23 hours have elapsed since lastRefreshedAt, and always when
lastRefreshedAt is missing. hoursElapsed is the exact quotient; the JS float
quotient agrees with it on this comparison. -/
def isUrlExpired (now : Int) (f : ClientFile) : Bool :=
  match f.lastRefreshedAt with
  | none => true
  | some lastRefresh =>
    let hoursElapsed : ℚ := ((now - lastRefresh : Int) : ℚ) / (1000 * 60 * 60)
    decide (hoursElapsed > 23)

/-- JS String.split on a one-character separator, as fileUtils.js applies it to
filenames: the list of (possibly empty) segments; never the empty list. -/
def splitOnChar (c : Char) : List Char → List (List Char)
  | [] => [[]]
  | x :: xs =>
    let r := splitOnChar c xs
    if x = c then [] :: r else (x :: r.headD []) :: r.tail

/-- The characters after the last occurrence of c, and the whole list when c
does not occur: the reference reading of the last segment of a split. -/
def afterLast (c : Char) : List Char → List Char
  | [] => []
  | x :: xs => if c ∈ xs then afterLast c xs else if x = c then xs else x :: xs

/-- The fixed allowlist of AI-eligible extensions (fileUtils.js line 107). -/
def aiSupportedTypes : List (List Char) :=
  ["pdf".toList, "txt".toList, "jpg".toList, "jpeg".toList, "png".toList,
   "gif".toList, "csv".toList, "json".toList, "xml".toList]

/-- fileUtils.js, isFileTypeSupportedForAI (lines 105-109): the last segment of
filename.split('.'), lowercased, must be in the allowlist. -/
def isFileTypeSupportedForAI (filename : String) : Bool :=
  decide (((splitOnChar '.' filename.toList).getLastD []).map Char.toLower ∈ aiSupportedTypes)

/-- The response body of POST /user/refresh-urls/{filename}; none for a field
the response does not carry. -/
structure RefreshData where
  minio_preview_url : Option String := none
  minio_download_url : Option String := none
  s3_preview_url : Option String := none
  s3_download_url : Option String := none
deriving DecidableEq

/-- The JS object spread: the response's field overrides the record's exactly
when the response carries it. -/
def overrideField (old new : Option String) : Option String :=
  match new with
  | none => old
  | some v => some v

/-- The update refreshFileUrls applies to the record whose filename matches:
the spread of the response data over the record plus a fresh lastRefreshedAt. -/
def applyRefresh (d : RefreshData) (now : Int) (f : ClientFile) : ClientFile :=
  { f with
    minio_preview_url := overrideField f.minio_preview_url d.minio_preview_url
    minio_download_url := overrideField f.minio_download_url d.minio_download_url
    s3_preview_url := overrideField f.s3_preview_url d.s3_preview_url
    s3_download_url := overrideField f.s3_download_url d.s3_download_url
    lastRefreshedAt := some now }

/-- The guard of refreshFileUrls's success branch: the fetch resolved and
data.minio_preview_url or data.s3_preview_url is truthy. -/
def refreshApplies (resp : Option RefreshData) : Bool :=
  match resp with
  | none => false
  | some d => truthyStr d.minio_preview_url || truthyStr d.s3_preview_url

/-- useFileManagement.js, refreshFileUrls (lines 126-158): resp is the server's
response (none when the fetch threw). When the response carries a preview URL
the matching record is updated and the data returned; otherwise the list is
untouched and null is returned. -/
def refreshFileUrls (files : List ClientFile) (filename : String)
    (resp : Option RefreshData) (now : Int) : List ClientFile × Option RefreshData :=
  match resp with
  | none => (files, none)
  | some d =>
    if truthyStr d.minio_preview_url || truthyStr d.s3_preview_url then
      (files.map fun f => if f.filename = filename then applyRefresh d now f else f,
       some d)
    else (files, none)

/-- useFileManagement.js, previewFile (lines 161-190): finds the record, runs a
refresh when its URLs are expired, then opens the preview URL read from the
fileData binding captured before the refresh. Returns the updated list and the
URL opened (none when nothing is opened). -/
def previewFile (files : List ClientFile) (filename source : String)
    (resp : Option RefreshData) (now : Int) : List ClientFile × Option String :=
  match files.find? (fun f => f.filename == filename) with
  | none => (files, none)
  | some fileData =>
    let files' :=
      if isUrlExpired now fileData then (refreshFileUrls files filename resp now).1
      else files
    let previewUrl : Option String :=
      if source = "minio" then fileData.minio_preview_url
      else if source = "s3" then fileData.s3_preview_url
      else some ""
    (files', if truthyStr previewUrl then previewUrl else none)

/-- FileDetailsModal.jsx line 93 and FileInfoGrid line 169: the statuses the
modal treats as infected. -/
def infectedStatuses : List String := ["infected", "infected-skip"]

/-- Whether the modal's status checks classify the record as infected
(JS Array.includes is false on an absent status). -/
def clientStatusInfected (f : ClientFile) : Bool :=
  match f.status with
  | none => false
  | some s => decide (s ∈ infectedStatuses)

/-- FileDetailsModal.jsx lines 128-145: S3 actions are offered exactly when the
status is not an infected one. -/
def modalShowsS3Actions (f : ClientFile) : Bool :=
  ! clientStatusInfected f

/-- FileDetailsModal.jsx line 111: the AI analysis section renders exactly when
the file type is AI-supported, independent of status. -/
def modalShowsAIAnalysis (f : ClientFile) : Bool :=
  isFileTypeSupportedForAI f.filename

/-- FileDetailsModal.jsx lines 111 and 231: the Analyze-with-AI button renders
when the section renders and there is no analysis yet or the last one failed. -/
def modalShowsAnalyzeButton (f : ClientFile) : Bool :=
  modalShowsAIAnalysis f &&
    (f.ai_analysis.isNone || f.ai_analysis_status == some "failed")

/-- FilesList.jsx lines 169-181: the list's AI button renders exactly for
AI-supported filenames that have no analysis yet, independent of status. -/
def filesListShowsAIButton (f : ClientFile) : Bool :=
  isFileTypeSupportedForAI f.filename && f.ai_analysis.isNone

/-- An HTTP response as fetchWithAuth reads it: the status code and the parsed
payload, modelled as an opaque string. -/
structure HttpResponse where
  status : Nat
  body : String
deriving DecidableEq

/-- The DOM-visible effects of a fetchWithAuth call. -/
structure FetchEffects where
  tokenCleared : Bool
  redirectedTo : Option String
deriving DecidableEq

/-- No token change, no navigation. -/
def noEffects : FetchEffects := { tokenCleared := false, redirectedTo := none }

/-- A call either resolves with data or throws an Error with a message. -/
inductive FetchOutcome where
  | success (data : String)
  | failure (message : String)
deriving DecidableEq

/-- The fetch API's Response.ok: status in 200..299. -/
def respOk (status : Nat) : Bool := decide (200 ≤ status ∧ status ≤ 299)

/-- fetchWithAuth.js (lines 2-65): token is the stored bearer token, net the
network outcome (none when fetch itself rejected). 401 clears the token,
navigates to /login and throws; 204 resolves empty; other non-ok statuses throw
the payload's message. -/
def fetchWithAuth (token : Option String) (net : Option HttpResponse) :
    FetchEffects × FetchOutcome :=
  match token with
  | none => (noEffects, .failure "No token found. Please log in again.")
  | some _ =>
    match net with
    | none => (noEffects, .failure "Failed to connect to the server. Please try again.")
    | some resp =>
      if resp.status = 401 then
        ({ tokenCleared := true, redirectedTo := some "/login" },
         .failure "Unauthorized - Session expired. Please log in again.")
      else if resp.status = 204 then (noEffects, .success "")
      else if respOk resp.status then (noEffects, .success resp.body)
      else (noEffects, .failure resp.body)

end Client

namespace Core

/-- Modelled from the spec: §3's closed status enum for a file record. -/
inductive Status where
  | minio
  | uploadedToS3
  | infected
  | infectedSkip
deriving DecidableEq

/-- Both infected statuses (the spec writes them infected*). -/
def Status.isInfected : Status → Bool
  | .infected => true
  | .infectedSkip => true
  | _ => false

/-- Modelled from the spec: §3's ai_analysis_status enum. -/
inductive AiStatus where
  | noAnalysis
  | pending
  | completed
  | failed
deriving DecidableEq

/-- Modelled from the spec: the structured AI result {summary, caption,
keywords[], analysis_date}. -/
structure AiResult where
  summary : String
  caption : String
  keywords : List String
  analysisDate : Int
deriving DecidableEq

/-- A presigned preview/download URL pair for one store. -/
structure Urls where
  preview : String
  download : String
deriving DecidableEq

/-- Modelled from the spec: §3's FileRecord, one per (owner, filename); the
orchestrator backend is not among the repository's visible sources. Timestamps
are epoch milliseconds. -/
structure FileRecord where
  filename : String
  ownerId : String
  size : Nat
  contentType : String
  status : Status
  virusName : Option String
  primaryUrls : Option Urls
  secondaryUrls : Option Urls
  urlsIssuedAt : Int
  aiAnalysis : Option AiResult
  aiAnalysisStatus : AiStatus
  createdAt : Int
  secondarySyncedAt : Option Int
deriving DecidableEq

/-- Modelled from the spec: the orchestrator's state — the File Record Store
plus the secondary-sync, analysis and tombstone-cleanup work queues (queues
hold filenames, deduplicated per §5). -/
structure CoreState where
  records : List FileRecord
  syncQueue : List String
  analysisQueue : List String
  cleanupQueue : List String
deriving DecidableEq

/-- The empty initial state. -/
def initState : CoreState := ⟨[], [], [], []⟩

/-- Modelled from the spec: the malware scanner as a binary oracle
(clean / infected / unavailable). -/
inductive Verdict where
  | clean
  | infectedBy (virusName : String)
  | unavailable
deriving DecidableEq

/-- Modelled from the spec: §7's error taxonomy for the synchronous paths. -/
inductive CoreError where
  | conflict
  | scannerUnavailable
  | storeUnavailable
  | recordNotFound
deriving DecidableEq

/-- Modelled from the spec: §6/§7's status-code mapping. -/
def httpCode : CoreError → Nat
  | .conflict => 409
  | .scannerUnavailable => 503
  | .storeUnavailable => 503
  | .recordNotFound => 404

/-- Whether a record is keyed by this owner and filename. -/
def hasKey (owner filename : String) (r : FileRecord) : Bool :=
  decide (r.ownerId = owner ∧ r.filename = filename)

/-- Modelled from the spec: §4.1 Ingestion Pipeline. Step 1 rejects a duplicate
key with Conflict; step 2 fails the whole ingestion with ScannerUnavailable
when the scanner is down (fail-closed, nothing stored); step 3 persists an
infected upload terminally (infected-skip per §8's scenario) with the virus
name, primary store only, never enqueueing sync or analysis; step 4 persists a
clean upload with status minio, primary URLs issued now, a secondary-sync task
and — for AI-eligible filenames — an analysis job. -/
def ingest (st : CoreState) (owner filename : String) (size : Nat)
    (ctype : String) (verdict : Verdict) (now : Int) (primary : Urls) :
    Except CoreError (CoreState × FileRecord) :=
  if st.records.any (hasKey owner filename) then
    .error .conflict
  else
    match verdict with
    | .unavailable => .error .scannerUnavailable
    | .infectedBy virus =>
      let r : FileRecord :=
        { filename := filename, ownerId := owner, size := size,
          contentType := ctype, status := .infectedSkip,
          virusName := some virus, primaryUrls := some primary,
          secondaryUrls := none, urlsIssuedAt := now, aiAnalysis := none,
          aiAnalysisStatus := .noAnalysis, createdAt := now,
          secondarySyncedAt := none }
      .ok ({ st with records := r :: st.records }, r)
    | .clean =>
      let r : FileRecord :=
        { filename := filename, ownerId := owner, size := size,
          contentType := ctype, status := .minio, virusName := none,
          primaryUrls := some primary, secondaryUrls := none,
          urlsIssuedAt := now, aiAnalysis := none,
          aiAnalysisStatus := .noAnalysis, createdAt := now,
          secondarySyncedAt := none }
      .ok ({ st with
             records := r :: st.records,
             syncQueue := filename :: st.syncQueue,
             analysisQueue :=
               if Client.isFileTypeSupportedForAI filename then
                 filename :: st.analysisQueue
               else st.analysisQueue }, r)

/-- The record update a completed secondary sync applies. -/
def syncComplete (now : Int) (secondary : Urls) (r : FileRecord) : FileRecord :=
  { r with status := .uploadedToS3, secondaryUrls := some secondary,
           secondarySyncedAt := some now, urlsIssuedAt := now }

/-- Modelled from the spec: §4.2 Secondary-Sync Worker. A successful run of the
task for a filename replicates every record still in the primary-only state
under that name and removes the task; a failed run retries later (the task
stays queued and nothing is reported to the user). The worker only ever acts on
status-minio records, so sync is never attempted for an infected record. -/
def syncStep (st : CoreState) (filename : String) (success : Bool) (now : Int)
    (secondary : Urls) : CoreState :=
  if filename ∈ st.syncQueue ∧ success then
    { st with
      records := st.records.map fun r =>
        if r.filename = filename ∧ r.status = .minio then
          syncComplete now secondary r
        else r,
      syncQueue := st.syncQueue.erase filename }
  else st

/-- The 23-hour staleness margin, in milliseconds (§4.3). -/
def staleLimitMs : Int := 23 * (1000 * 60 * 60)

/-- Modelled from the spec: §4.3's staleness test, now - urls_issued_at > 23h. -/
def staleAt (now : Int) (r : FileRecord) : Bool :=
  decide (now - r.urlsIssuedAt > staleLimitMs)

/-- The store a refresh targets. -/
inductive Target where
  | primary
  | secondary
deriving DecidableEq

/-- Modelled from the spec: §4.3's per-record refresh — re-issue both URLs of
the requested target and update urls_issued_at; refreshing the secondary
target of a record whose status is not uploaded-to-s3 is a no-op. -/
def refreshRecord (target : Target) (now : Int) (fresh : Urls)
    (r : FileRecord) : FileRecord :=
  match target with
  | .primary => { r with primaryUrls := some fresh, urlsIssuedAt := now }
  | .secondary =>
    if r.status = .uploadedToS3 then
      { r with secondaryUrls := some fresh, urlsIssuedAt := now }
    else r

/-- Modelled from the spec: §4.3 EnsureFreshURLs, called on read paths — the
targeted record is re-issued fresh URLs when stale. -/
def ensureFreshUrls (st : CoreState) (owner filename : String) (target : Target)
    (now : Int) (fresh : Urls) : CoreState :=
  { st with
    records := st.records.map fun r =>
      if hasKey owner filename r ∧ staleAt now r then
        refreshRecord target now fresh r
      else r }

/-- Modelled from the spec: §4.3's periodic sweep — refresh the primary URLs of
every non-infected record, and the secondary URLs of replicated ones. -/
def sweep (st : CoreState) (now : Int) (fresh : String → Urls) : CoreState :=
  { st with
    records := st.records.map fun r =>
      if r.status.isInfected then r
      else if r.status = .uploadedToS3 then
        { r with primaryUrls := some (fresh r.filename),
                 secondaryUrls := some (fresh r.filename),
                 urlsIssuedAt := now }
      else
        { r with primaryUrls := some (fresh r.filename), urlsIssuedAt := now } }

/-- Modelled from the spec: §4.4's deduplicated Enqueue — a filename already
pending is a no-op, an unknown filename is refused, otherwise a job is queued. -/
def enqueueAnalysis (st : CoreState) (filename : String) : CoreState :=
  if filename ∈ st.analysisQueue then st
  else if st.records.any (fun r => r.filename = filename) then
    { st with analysisQueue := filename :: st.analysisQueue }
  else st

/-- Modelled from the spec: §4.4's processing of one queued job — on success
the structured result is stored with analysis_date now and the status becomes
completed; on failure it becomes failed (single attempt). The record's storage
status is never consulted: infection does not block analysis. -/
def analysisStep (st : CoreState) (filename : String) (result : Option AiResult)
    (now : Int) : CoreState :=
  if filename ∈ st.analysisQueue then
    { st with
      records := st.records.map fun r =>
        if r.filename = filename then
          match result with
          | some a =>
            { r with aiAnalysis := some { a with analysisDate := now },
                     aiAnalysisStatus := .completed }
          | none => { r with aiAnalysisStatus := .failed }
        else r,
      analysisQueue := st.analysisQueue.erase filename }
  else st

/-- Modelled from the spec: §4.5 Deletion — primary deletion first; once it
succeeds the record leaves the File Record Store immediately and a background
tombstone task finishes secondary removal; pending sync and analysis tasks for
the filename are cancelled (§5). -/
def deleteFile (st : CoreState) (owner filename : String) (primaryOk : Bool) :
    Except CoreError CoreState :=
  if st.records.any (hasKey owner filename) then
    if primaryOk then
      .ok { st with
            records := st.records.filter fun r => ! hasKey owner filename r,
            syncQueue := st.syncQueue.erase filename,
            analysisQueue := st.analysisQueue.erase filename,
            cleanupQueue := filename :: st.cleanupQueue }
    else .error .storeUnavailable
  else .error .recordNotFound

/-- Modelled from the spec: the background tombstone-cleanup task finishing a
deletion's secondary removal; it never touches the File Record Store. -/
def cleanupStep (st : CoreState) (filename : String) (success : Bool) : CoreState :=
  if success then { st with cleanupQueue := st.cleanupQueue.erase filename }
  else st

/-- Modelled from the spec: GET /user/files — the owner's records. -/
def listFiles (st : CoreState) (owner : String) : List FileRecord :=
  st.records.filter fun r => r.ownerId = owner

/-- One transition of the orchestrator: any synchronous operation or background
worker step. -/
inductive Step : CoreState → CoreState → Prop
  | ingestOk (st : CoreState) (owner filename : String) (size : Nat)
      (ctype : String) (verdict : Verdict) (now : Int) (primary : Urls)
      (st' : CoreState) (r : FileRecord)
      (h : ingest st owner filename size ctype verdict now primary = .ok (st', r)) :
      Step st st'
  | sync (st : CoreState) (filename : String) (success : Bool) (now : Int)
      (secondary : Urls) : Step st (syncStep st filename success now secondary)
  | refresh (st : CoreState) (owner filename : String) (target : Target)
      (now : Int) (fresh : Urls) :
      Step st (ensureFreshUrls st owner filename target now fresh)
  | sweepAll (st : CoreState) (now : Int) (fresh : String → Urls) :
      Step st (sweep st now fresh)
  | enqueue (st : CoreState) (filename : String) :
      Step st (enqueueAnalysis st filename)
  | analyze (st : CoreState) (filename : String) (result : Option AiResult)
      (now : Int) : Step st (analysisStep st filename result now)
  | delete (st : CoreState) (owner filename : String) (st' : CoreState)
      (h : deleteFile st owner filename true = .ok st') : Step st st'
  | cleanup (st : CoreState) (filename : String) (success : Bool) :
      Step st (cleanupStep st filename success)

/-- States the orchestrator can reach from the empty store. -/
inductive Reachable : CoreState → Prop
  | init : Reachable initState
  | step {st st' : CoreState} : Reachable st → Step st st' → Reachable st'

/-- A record respecting §3's invariant: infected records carry no secondary
URLs. -/
def RecordOk (r : FileRecord) : Prop :=
  r.status.isInfected = true → r.secondaryUrls = none

/-- §3's invariant over a whole state. -/
def InfectedNoSecondary (st : CoreState) : Prop :=
  ∀ r ∈ st.records, RecordOk r

/-- The only status movement one step may make: stay put, or go from
primary-only to replicated. -/
def statusStepOk (a b : Status) : Prop :=
  a = b ∨ (a = .minio ∧ b = .uploadedToS3)

end Core

namespace Client

/-- A record whose URLs were issued at epoch 0, read 25 hours later. -/
def c1File : ClientFile :=
  { filename := "report.pdf", status := some "minio", lastRefreshedAt := some 0,
    minio_preview_url := some "minio-preview-old",
    minio_download_url := some "minio-download-old" }

/-- The refresh-urls response the server hands back for c1File. -/
def c1Resp : RefreshData :=
  { minio_preview_url := some "minio-preview-new",
    minio_download_url := some "minio-download-new" }

/-- 25 hours in milliseconds. -/
def c1Now : Int := 25 * (1000 * 60 * 60)

end Client

/-- The staleness test on a present timestamp is the exact 23-hour threshold:
the rational quotient exceeds 23 exactly when now - t exceeds 23h in
milliseconds. -/
theorem isUrlExpired_some_iff (now t : Int) (f : Client.ClientFile)
    (h : f.lastRefreshedAt = some t) :
    Client.isUrlExpired now f = true ↔ 23 * (1000 * 60 * 60) < now - t := by
  simp only [Client.isUrlExpired, h, decide_eq_true_eq, gt_iff_lt]
  rw [lt_div_iff₀ (by norm_num : (0 : ℚ) < 1000 * 60 * 60)]
  constructor
  · intro hq
    exact_mod_cast hq
  · intro hz
    exact_mod_cast hz

/-- C9: a record with no recorded lastRefreshedAt is always treated as stale by
isUrlExpired, so its URLs are refreshed before use. -/
theorem isUrlExpired_none_stale (now : Int) (f : Client.ClientFile)
    (h : f.lastRefreshedAt = none) : Client.isUrlExpired now f = true := by
  simp [Client.isUrlExpired, h]

/-- Witness for C9 at a concrete record with an absent timestamp. -/
theorem isUrlExpired_none_stale_witness :
    Client.isUrlExpired 0 { filename := "a" } = true :=
  isUrlExpired_none_stale 0 { filename := "a" } rfl

/-- C5: a 401 response on an authenticated call clears the stored token,
navigates to /login and throws; and no call whose network response carried
status 401 ever resolves successfully. -/
theorem fetchWithAuth_unauthorized :
    (∀ (tok : String) (resp : Client.HttpResponse), resp.status = 401 →
        Client.fetchWithAuth (some tok) (some resp) =
          ({ tokenCleared := true, redirectedTo := some "/login" },
           Client.FetchOutcome.failure
             "Unauthorized - Session expired. Please log in again.")) ∧
    (∀ (token : Option String) (net : Option Client.HttpResponse)
        (eff : Client.FetchEffects) (d : String) (resp : Client.HttpResponse),
        Client.fetchWithAuth token net = (eff, Client.FetchOutcome.success d) →
        net = some resp → resp.status ≠ 401) := by
  constructor
  · intro tok resp h
    simp [Client.fetchWithAuth, h]
  · intro token net eff d resp h hnet h401
    subst hnet
    cases token with
    | none => simp [Client.fetchWithAuth] at h
    | some tok => simp [Client.fetchWithAuth, h401] at h

/-- C7: ingestion is fail-closed — with the scanner unavailable no upload is
ever accepted, a duplicate-free upload fails with ScannerUnavailable surfaced
as 503, and every accepted upload carried a real scanner verdict. -/
theorem scanner_unavailable_fail_closed :
    (∀ (st : Core.CoreState) (owner filename : String) (size : Nat)
        (ctype : String) (now : Int) (primary : Core.Urls)
        (out : Core.CoreState × Core.FileRecord),
        Core.ingest st owner filename size ctype .unavailable now primary ≠
          .ok out) ∧
    (∀ (st : Core.CoreState) (owner filename : String) (size : Nat)
        (ctype : String) (now : Int) (primary : Core.Urls),
        st.records.any (Core.hasKey owner filename) = false →
        Core.ingest st owner filename size ctype .unavailable now primary =
          .error .scannerUnavailable) ∧
    Core.httpCode .scannerUnavailable = 503 ∧
    (∀ (st : Core.CoreState) (owner filename : String) (size : Nat)
        (ctype : String) (verdict : Core.Verdict) (now : Int)
        (primary : Core.Urls) (out : Core.CoreState × Core.FileRecord),
        Core.ingest st owner filename size ctype verdict now primary = .ok out →
        verdict ≠ .unavailable) := by
  refine ⟨?_, ?_, rfl, ?_⟩
  · intro st owner filename size ctype now primary out h
    by_cases hdup : st.records.any (Core.hasKey owner filename) = true <;>
      simp [Core.ingest, hdup] at h
  · intro st owner filename size ctype now primary hdup
    simp [Core.ingest, hdup]
  · intro st owner filename size ctype verdict now primary out h hv
    subst hv
    by_cases hdup : st.records.any (Core.hasKey owner filename) = true <;>
      simp [Core.ingest, hdup] at h

/-- C8: once a delete succeeds, the filename is gone from the owner's
GET /user/files listing immediately, while the secondary-blob cleanup is still
pending in the background queue. -/
theorem delete_removes_from_listing (st : Core.CoreState)
    (owner filename : String) (st' : Core.CoreState)
    (h : Core.deleteFile st owner filename true = .ok st') :
    (∀ r ∈ Core.listFiles st' owner, r.filename ≠ filename) ∧
    filename ∈ st'.cleanupQueue := by
  by_cases hex : st.records.any (Core.hasKey owner filename) = true
  · rw [Core.deleteFile, if_pos hex, if_pos rfl] at h
    cases h
    constructor
    · intro r hr hfn
      subst hfn
      have hmem := List.mem_filter.mp (List.mem_filter.mp hr).1
      have howner := of_decide_eq_true (List.mem_filter.mp hr).2
      have hkey : Core.hasKey owner r.filename r = true := by
        simp [Core.hasKey, howner]
      simp [hkey] at hmem
    · exact List.mem_cons_self _ _
  · rw [Core.deleteFile, if_neg hex] at h
    cases h

/-- Witness for C8: deleting alice's report.pdf from a one-record store leaves
the cleanup pending while the record is gone. -/
theorem delete_removes_from_listing_witness :
    "report.pdf" ∈
      (Core.CoreState.mk [] [] [] ["report.pdf"]).cleanupQueue :=
  (delete_removes_from_listing
    (Core.CoreState.mk
      [{ filename := "report.pdf", ownerId := "alice", size := 10,
         contentType := "application/pdf", status := .minio, virusName := none,
         primaryUrls := some ⟨"p", "d"⟩, secondaryUrls := none,
         urlsIssuedAt := 0, aiAnalysis := none, aiAnalysisStatus := .noAnalysis,
         createdAt := 0, secondarySyncedAt := none }] [] [] [])
    "alice" "report.pdf"
    (Core.CoreState.mk [] [] [] ["report.pdf"]) rfl).2

/-- C10: refreshFileUrls is frame-preserving — with no usable response the list
and the returned value are unchanged and null; with a usable response only the
records named filename are updated, by the spread-merge plus a fresh
lastRefreshedAt, and the data is returned. -/
theorem refreshFileUrls_frame (files : List Client.ClientFile)
    (filename : String) (resp : Option Client.RefreshData) (now : Int) :
    (Client.refreshApplies resp = false →
        Client.refreshFileUrls files filename resp now = (files, none)) ∧
    (∀ d, resp = some d → Client.refreshApplies resp = true →
        (Client.refreshFileUrls files filename resp now).2 = some d ∧
        ∀ i : Nat, (Client.refreshFileUrls files filename resp now).1[i]? =
          (files[i]?).map fun f =>
            if f.filename = filename then Client.applyRefresh d now f else f) ∧
    (∀ (i : Nat) (f : Client.ClientFile), files[i]? = some f →
        f.filename ≠ filename →
        (Client.refreshFileUrls files filename resp now).1[i]? = some f) := by
  refine ⟨?_, ?_, ?_⟩
  · intro hno
    cases resp with
    | none => rfl
    | some d =>
      simp only [Client.refreshApplies] at hno
      simp [Client.refreshFileUrls, hno]
  · rintro d rfl happ
    simp only [Client.refreshApplies] at happ
    refine ⟨?_, ?_⟩
    · simp [Client.refreshFileUrls, happ]
    · intro i
      simp [Client.refreshFileUrls, happ, List.getElem?_map]
  · intro i f hif hne
    cases resp with
    | none => simpa [Client.refreshFileUrls] using hif
    | some d =>
      by_cases happ : (Client.truthyStr d.minio_preview_url ||
          Client.truthyStr d.s3_preview_url) = true
      · simp [Client.refreshFileUrls, happ, List.getElem?_map, hif, hne]
      · simp only [Bool.not_eq_true] at happ
        simpa [Client.refreshFileUrls, happ] using hif

/-- splitOnChar always returns at least one segment, as JS split does. -/
theorem splitOnChar_ne_nil (c : Char) (l : List Char) :
    Client.splitOnChar c l ≠ [] := by
  cases l with
  | nil => simp [Client.splitOnChar]
  | cons x xs =>
    simp only [Client.splitOnChar]
    split <;> simp

/-- Splitting on an absent separator yields the single whole segment. -/
theorem splitOnChar_of_not_mem (c : Char) (l : List Char) (h : c ∉ l) :
    Client.splitOnChar c l = [l] := by
  induction l with
  | nil => rfl
  | cons x xs ih =>
    have h' := h
    rw [List.mem_cons, not_or] at h'
    obtain ⟨h1, h2⟩ := h'
    simp only [Client.splitOnChar, ih h2]
    rw [if_neg (fun he => h1 he.symm)]
    rfl

/-- Splitting on a present separator yields at least two segments. -/
theorem two_le_length_splitOnChar (c : Char) (l : List Char) (h : c ∈ l) :
    2 ≤ (Client.splitOnChar c l).length := by
  induction l with
  | nil => cases h
  | cons x xs ih =>
    have hne := splitOnChar_ne_nil c xs
    have hpos : 0 < (Client.splitOnChar c xs).length := List.length_pos.mpr hne
    simp only [Client.splitOnChar]
    by_cases hx : x = c
    · rw [if_pos hx]
      simp only [List.length_cons]
      omega
    · rw [if_neg hx]
      have hm : c ∈ xs := by
        rcases List.mem_cons.mp h with h1 | h2
        · exact absurd h1.symm hx
        · exact h2
      have hlen := ih hm
      have htail : (Client.splitOnChar c xs).tail.length =
          (Client.splitOnChar c xs).length - 1 := List.length_tail _
      simp only [List.length_cons]
      omega

/-- The default of getLastD is irrelevant on a nonempty list. -/
theorem getLastD_irrel {α : Type} {l : List α} (h : l ≠ []) (a b : α) :
    l.getLastD a = l.getLastD b := by
  cases l with
  | nil => exact absurd rfl h
  | cons x xs => rw [List.getLastD_cons, List.getLastD_cons]

/-- afterLast is the identity when the separator is absent. -/
theorem afterLast_of_not_mem (c : Char) (l : List Char) (h : c ∉ l) :
    Client.afterLast c l = l := by
  cases l with
  | nil => rfl
  | cons x xs =>
    have h' := h
    rw [List.mem_cons, not_or] at h'
    obtain ⟨h1, h2⟩ := h'
    simp only [Client.afterLast]
    rw [if_neg h2, if_neg (fun he => h1 he.symm)]

/-- The last segment of a split is exactly the suffix after the last
separator. -/
theorem getLastD_splitOnChar (c : Char) (l : List Char) :
    (Client.splitOnChar c l).getLastD [] = Client.afterLast c l := by
  induction l with
  | nil => rfl
  | cons x xs ih =>
    simp only [Client.splitOnChar, Client.afterLast]
    by_cases hx : x = c
    · rw [if_pos hx]
      by_cases hm : c ∈ xs
      · rw [if_pos hm, List.getLastD_cons]
        exact ih
      · rw [if_neg hm, if_pos hx, List.getLastD_cons, ih,
          afterLast_of_not_mem c xs hm]
    · rw [if_neg hx]
      by_cases hm : c ∈ xs
      · rw [if_pos hm]
        obtain ⟨y, ys, hys⟩ : ∃ y ys, Client.splitOnChar c xs = y :: ys := by
          cases hsp : Client.splitOnChar c xs with
          | nil => exact absurd hsp (splitOnChar_ne_nil c xs)
          | cons y ys => exact ⟨y, ys, rfl⟩
        have hlen := two_le_length_splitOnChar c xs hm
        rw [hys] at hlen
        have hys_ne : ys ≠ [] := by
          intro hnil
          rw [hnil] at hlen
          simp at hlen
        rw [hys]
        simp only [List.headD_cons, List.tail_cons]
        rw [List.getLastD_cons, ← ih, hys, List.getLastD_cons]
        exact getLastD_irrel hys_ne _ _
      · rw [if_neg hm, if_neg hx, splitOnChar_of_not_mem c xs hm]
        rfl

/-- Every list either lacks the separator and is its own last segment, or
decomposes as a prefix, the last separator, and the separator-free suffix. -/
theorem afterLast_decomp (c : Char) (l : List Char) :
    (c ∉ l ∧ Client.afterLast c l = l) ∨
    ∃ p, l = p ++ c :: Client.afterLast c l ∧ c ∉ Client.afterLast c l := by
  induction l with
  | nil => exact Or.inl ⟨List.not_mem_nil c, rfl⟩
  | cons x xs ih =>
    by_cases hm : c ∈ xs
    · have hrw : Client.afterLast c (x :: xs) = Client.afterLast c xs := by
        simp only [Client.afterLast]
        rw [if_pos hm]
      rcases ih with ⟨hnm, _⟩ | ⟨p, hp, hna⟩
      · exact absurd hm hnm
      · refine Or.inr ⟨x :: p, ?_, ?_⟩
        · rw [hrw, List.cons_append, ← hp]
        · rw [hrw]
          exact hna
    · by_cases hx : x = c
      · have hrw : Client.afterLast c (x :: xs) = xs := by
          simp only [Client.afterLast]
          rw [if_neg hm, if_pos hx]
        refine Or.inr ⟨[], ?_, ?_⟩
        · rw [hrw, List.nil_append, hx]
        · rw [hrw]
          exact hm
      · have hrw : Client.afterLast c (x :: xs) = x :: xs := by
          simp only [Client.afterLast]
          rw [if_neg hm, if_neg hx]
        refine Or.inl ⟨?_, hrw⟩
        rw [List.mem_cons, not_or]
        exact ⟨fun he => hx he.symm, hm⟩

/-- The suffix after an explicitly last separator is recovered by afterLast. -/
theorem afterLast_append_cons (c : Char) (p s : List Char) (h : c ∉ s) :
    Client.afterLast c (p ++ c :: s) = s := by
  induction p with
  | nil =>
    show Client.afterLast c (c :: s) = s
    simp only [Client.afterLast]
    rw [if_neg h]
    simp
  | cons a p ih =>
    have hm : c ∈ p ++ c :: s :=
      List.mem_append_right _ (List.mem_cons_self c s)
    show Client.afterLast c (a :: (p ++ c :: s)) = s
    simp only [Client.afterLast]
    rw [if_pos hm]
    exact ih

/-- C2: a filename is AI-eligible exactly when its final extension — the
dot-free suffix after its last dot, or the whole dotless name — lowercased, is
one of pdf, txt, jpg, jpeg, png, gif, csv, json, xml. -/
theorem isFileTypeSupportedForAI_iff_finalExtension (f : String) :
    Client.isFileTypeSupportedForAI f = true ↔
      ∃ e ∈ Client.aiSupportedTypes,
        ('.' ∉ f.toList ∧ f.toList.map Char.toLower = e) ∨
        ∃ p s, f.toList = p ++ '.' :: s ∧ '.' ∉ s ∧ s.map Char.toLower = e := by
  rw [Client.isFileTypeSupportedForAI, decide_eq_true_eq, getLastD_splitOnChar]
  constructor
  · intro hmem
    rcases afterLast_decomp '.' f.toList with ⟨hnm, heq⟩ | ⟨p, hp, hna⟩
    · refine ⟨(f.toList).map Char.toLower, ?_, Or.inl ⟨hnm, rfl⟩⟩
      rwa [heq] at hmem
    · exact ⟨(Client.afterLast '.' f.toList).map Char.toLower, hmem,
        Or.inr ⟨p, Client.afterLast '.' f.toList, hp, hna, rfl⟩⟩
  · rintro ⟨e, he, ⟨hnm, hmap⟩ | ⟨p, s, hl, hns, hmap⟩⟩
    · rw [afterLast_of_not_mem '.' f.toList hnm, hmap]
      exact he
    · rw [hl, afterLast_append_cons '.' p s hns, hmap]
      exact he

/-- C1 (code bug): at 25 hours the record is stale, previewFile does refresh
the stored list — its target record ends up carrying the fresh URL — yet the
URL it opens is read from the pre-refresh record, so a URL older than 23 hours
is handed to the client. -/
theorem previewFile_hands_out_stale_url :
    Client.isUrlExpired Client.c1Now Client.c1File = true ∧
    ((Client.previewFile [Client.c1File] "report.pdf" "minio"
        (some Client.c1Resp) Client.c1Now).1.map
      fun g => g.minio_preview_url) = [some "minio-preview-new"] ∧
    (Client.previewFile [Client.c1File] "report.pdf" "minio"
        (some Client.c1Resp) Client.c1Now).2 = some "minio-preview-old" := by
  have hexp : Client.isUrlExpired Client.c1Now Client.c1File = true :=
    (isUrlExpired_some_iff Client.c1Now 0 Client.c1File rfl).mpr (by decide)
  have hfind : List.find? (fun f => f.filename == "report.pdf")
      [Client.c1File] = some Client.c1File := rfl
  refine ⟨hexp, ?_, ?_⟩
  · simp only [Client.previewFile, hfind, hexp, if_true]
    decide
  · simp only [Client.previewFile, hfind, hexp, if_true]
    decide

/-- Pointwise-good updates preserve per-record invariants under map. -/
theorem recordOk_map {l : List Core.FileRecord} {g : Core.FileRecord → Core.FileRecord}
    (hg : ∀ r, Core.RecordOk r → Core.RecordOk (g r))
    (hl : ∀ r ∈ l, Core.RecordOk r) : ∀ r ∈ l.map g, Core.RecordOk r := by
  intro r hr
  rcases List.mem_map.mp hr with ⟨s, hs, rfl⟩
  exact hg s (hl s hs)

/-- Enqueueing an analysis job never touches the record store. -/
theorem records_enqueueAnalysis (st : Core.CoreState) (filename : String) :
    (Core.enqueueAnalysis st filename).records = st.records := by
  unfold Core.enqueueAnalysis
  split_ifs <;> rfl

/-- Tombstone cleanup never touches the record store. -/
theorem records_cleanupStep (st : Core.CoreState) (filename : String)
    (success : Bool) : (Core.cleanupStep st filename success).records = st.records := by
  unfold Core.cleanupStep
  split_ifs <;> rfl

/-- Every orchestrator step preserves the no-secondary-URLs-when-infected
invariant. -/
theorem step_infectedNoSecondary {st st' : Core.CoreState} (h : Core.Step st st')
    (inv : Core.InfectedNoSecondary st) : Core.InfectedNoSecondary st' := by
  cases h with
  | ingestOk owner filename size ctype verdict now primary st2 r hok =>
    cases hb : st.records.any (Core.hasKey owner filename) with
    | true => simp [Core.ingest, hb] at hok
    | false =>
      cases verdict with
      | unavailable => simp [Core.ingest, hb] at hok
      | infectedBy virus =>
        simp only [Core.ingest, hb, Bool.false_eq_true, if_false,
          Except.ok.injEq, Prod.mk.injEq] at hok
        obtain ⟨h1, h2⟩ := hok
        subst h1
        intro r' hr'
        rcases List.mem_cons.mp hr' with rfl | hmem
        · exact fun _ => rfl
        · exact inv r' hmem
      | clean =>
        simp only [Core.ingest, hb, Bool.false_eq_true, if_false,
          Except.ok.injEq, Prod.mk.injEq] at hok
        obtain ⟨h1, h2⟩ := hok
        subst h1
        intro r' hr'
        rcases List.mem_cons.mp hr' with rfl | hmem
        · exact fun _ => rfl
        · exact inv r' hmem
  | sync filename success now secondary =>
    unfold Core.syncStep
    by_cases hc : filename ∈ st.syncQueue ∧ success = true
    · rw [if_pos hc]
      intro r hr
      refine recordOk_map ?_ inv r hr
      intro q hq
      by_cases hcond : q.filename = filename ∧ q.status = Core.Status.minio
      · rw [if_pos hcond]
        intro habs
        simp [Core.syncComplete, Core.Status.isInfected] at habs
      · rw [if_neg hcond]
        exact hq
    · rw [if_neg hc]
      exact inv
  | refresh owner filename target now fresh =>
    intro r hr
    refine recordOk_map ?_ inv r hr
    intro q hq
    by_cases hcond : Core.hasKey owner filename q = true ∧ Core.staleAt now q = true
    · rw [if_pos hcond]
      cases target with
      | primary => exact hq
      | secondary =>
        simp only [Core.refreshRecord]
        by_cases hs : q.status = Core.Status.uploadedToS3
        · rw [if_pos hs]
          intro habs
          simp [hs, Core.Status.isInfected] at habs
        · rw [if_neg hs]
          exact hq
    · rw [if_neg hcond]
      exact hq
  | sweepAll now fresh =>
    intro r hr
    refine recordOk_map ?_ inv r hr
    intro q hq
    by_cases hinf : q.status.isInfected = true
    · rw [if_pos hinf]
      exact hq
    · rw [if_neg hinf]
      by_cases hs : q.status = Core.Status.uploadedToS3
      · rw [if_pos hs]
        intro habs
        exact absurd habs hinf
      · rw [if_neg hs]
        intro habs
        exact absurd habs hinf
  | enqueue filename =>
    intro r hr
    rw [records_enqueueAnalysis] at hr
    exact inv r hr
  | analyze filename result now =>
    unfold Core.analysisStep
    by_cases hq : filename ∈ st.analysisQueue
    · rw [if_pos hq]
      intro r hr
      refine recordOk_map ?_ inv r hr
      intro q hqr
      by_cases hfn : q.filename = filename
      · rw [if_pos hfn]
        cases result with
        | some a => exact hqr
        | none => exact hqr
      · rw [if_neg hfn]
        exact hqr
    · rw [if_neg hq]
      exact inv
  | delete owner filename st2 hok =>
    cases hb : st.records.any (Core.hasKey owner filename) with
    | false => simp [Core.deleteFile, hb] at hok
    | true =>
      simp only [Core.deleteFile, hb, if_true, Except.ok.injEq] at hok
      subst hok
      intro r hr
      exact inv r (List.mem_filter.mp hr).1
  | cleanup filename success =>
    intro r hr
    rw [records_cleanupStep] at hr
    exact inv r hr

/-- The invariant holds in every reachable state. -/
theorem reachable_infectedNoSecondary {st : Core.CoreState}
    (h : Core.Reachable st) : Core.InfectedNoSecondary st := by
  induction h with
  | init => intro r hr; cases hr
  | step _ hstep ih => exact step_infectedNoSecondary hstep ih

/-- C3: in every reachable state an infected record has no secondary URLs; the
sync worker leaves infected records untouched (sync is never attempted for
them); and the modal never offers S3 actions for an infected record. -/
theorem infected_never_secondary :
    (∀ st : Core.CoreState, Core.Reachable st →
        ∀ r ∈ st.records, r.status.isInfected = true → r.secondaryUrls = none) ∧
    (∀ (st : Core.CoreState) (filename : String) (success : Bool) (now : Int)
        (secondary : Core.Urls) (r : Core.FileRecord),
        r ∈ st.records → r.status.isInfected = true →
        r ∈ (Core.syncStep st filename success now secondary).records) ∧
    (∀ f : Client.ClientFile, Client.clientStatusInfected f = true →
        Client.modalShowsS3Actions f = false) := by
  refine ⟨?_, ?_, ?_⟩
  · intro st hreach
    exact reachable_infectedNoSecondary hreach
  · intro st filename success now secondary r hr hinf
    unfold Core.syncStep
    by_cases hc : filename ∈ st.syncQueue ∧ success = true
    · rw [if_pos hc]
      have hcond : ¬(r.filename = filename ∧ r.status = Core.Status.minio) := by
        rintro ⟨-, hs⟩
        rw [hs] at hinf
        simp [Core.Status.isInfected] at hinf
      have hmem := List.mem_map_of_mem
        (fun q => if q.filename = filename ∧ q.status = Core.Status.minio
          then Core.syncComplete now secondary q else q) hr
      simp only [if_neg hcond] at hmem
      exact hmem
    · rw [if_neg hc]
      exact hr
  · intro f hinf
    simp [Client.modalShowsS3Actions, hinf]

/-- A record-store map whose update keeps the key and moves the status only
forward yields a monotone successor for every record. -/
theorem mono_map_case {l : List Core.FileRecord}
    {g : Core.FileRecord → Core.FileRecord}
    (hg : ∀ q, (g q).ownerId = q.ownerId ∧ (g q).filename = q.filename ∧
        Core.statusStepOk q.status (g q).status)
    (r : Core.FileRecord) (hr : r ∈ l) :
    ∃ r' ∈ l.map g, r'.ownerId = r.ownerId ∧ r'.filename = r.filename ∧
      Core.statusStepOk r.status r'.status :=
  ⟨g r, List.mem_map_of_mem g hr, (hg r).1, (hg r).2.1, (hg r).2.2⟩

/-- C6: every orchestrator step either keeps a same-key successor of each
record whose status moved only along minio to uploaded-to-s3 (in particular
never out of an infected status, never back from uploaded-to-s3), or deleted
the record outright; a clean ingest starts at minio and an infected ingest
starts infected. -/
theorem status_monotonic :
    (∀ st st' : Core.CoreState, Core.Step st st' →
        ∀ r ∈ st.records,
          (∃ r' ∈ st'.records, r'.ownerId = r.ownerId ∧
              r'.filename = r.filename ∧
              Core.statusStepOk r.status r'.status) ∨
          (∀ r' ∈ st'.records,
              ¬(r'.ownerId = r.ownerId ∧ r'.filename = r.filename))) ∧
    (∀ (st : Core.CoreState) (owner filename : String) (size : Nat)
        (ctype : String) (now : Int) (primary : Core.Urls)
        (st' : Core.CoreState) (r : Core.FileRecord),
        Core.ingest st owner filename size ctype .clean now primary =
          .ok (st', r) → r.status = Core.Status.minio) ∧
    (∀ (st : Core.CoreState) (owner filename virus : String) (size : Nat)
        (ctype : String) (now : Int) (primary : Core.Urls)
        (st' : Core.CoreState) (r : Core.FileRecord),
        Core.ingest st owner filename size ctype (.infectedBy virus) now
          primary = .ok (st', r) → r.status.isInfected = true) := by
  refine ⟨?_, ?_, ?_⟩
  · intro st st' h r hr
    cases h with
    | ingestOk owner filename size ctype verdict now primary st2 r2 hok =>
      cases hb : st.records.any (Core.hasKey owner filename) with
      | true => simp [Core.ingest, hb] at hok
      | false =>
        cases verdict with
        | unavailable => simp [Core.ingest, hb] at hok
        | infectedBy virus =>
          simp only [Core.ingest, hb, Bool.false_eq_true, if_false,
            Except.ok.injEq, Prod.mk.injEq] at hok
          obtain ⟨h1, -⟩ := hok
          subst h1
          exact Or.inl ⟨r, List.mem_cons_of_mem _ hr, rfl, rfl, Or.inl rfl⟩
        | clean =>
          simp only [Core.ingest, hb, Bool.false_eq_true, if_false,
            Except.ok.injEq, Prod.mk.injEq] at hok
          obtain ⟨h1, -⟩ := hok
          subst h1
          exact Or.inl ⟨r, List.mem_cons_of_mem _ hr, rfl, rfl, Or.inl rfl⟩
    | sync filename success now secondary =>
      unfold Core.syncStep
      by_cases hc : filename ∈ st.syncQueue ∧ success = true
      · rw [if_pos hc]
        refine Or.inl (mono_map_case ?_ r hr)
        intro q
        by_cases hcond : q.filename = filename ∧ q.status = Core.Status.minio
        · rw [if_pos hcond]
          exact ⟨rfl, rfl, Or.inr ⟨hcond.2, rfl⟩⟩
        · rw [if_neg hcond]
          exact ⟨rfl, rfl, Or.inl rfl⟩
      · rw [if_neg hc]
        exact Or.inl ⟨r, hr, rfl, rfl, Or.inl rfl⟩
    | refresh owner filename target now fresh =>
      refine Or.inl (mono_map_case ?_ r hr)
      intro q
      by_cases hcond : Core.hasKey owner filename q = true ∧
          Core.staleAt now q = true
      · rw [if_pos hcond]
        cases target with
        | primary => exact ⟨rfl, rfl, Or.inl rfl⟩
        | secondary =>
          simp only [Core.refreshRecord]
          by_cases hs : q.status = Core.Status.uploadedToS3
          · rw [if_pos hs]
            exact ⟨rfl, rfl, Or.inl rfl⟩
          · rw [if_neg hs]
            exact ⟨rfl, rfl, Or.inl rfl⟩
      · rw [if_neg hcond]
        exact ⟨rfl, rfl, Or.inl rfl⟩
    | sweepAll now fresh =>
      refine Or.inl (mono_map_case ?_ r hr)
      intro q
      by_cases hinf : q.status.isInfected = true
      · rw [if_pos hinf]
        exact ⟨rfl, rfl, Or.inl rfl⟩
      · rw [if_neg hinf]
        by_cases hs : q.status = Core.Status.uploadedToS3
        · rw [if_pos hs]
          exact ⟨rfl, rfl, Or.inl rfl⟩
        · rw [if_neg hs]
          exact ⟨rfl, rfl, Or.inl rfl⟩
    | enqueue filename =>
      refine Or.inl ⟨r, ?_, rfl, rfl, Or.inl rfl⟩
      rw [records_enqueueAnalysis]
      exact hr
    | analyze filename result now =>
      unfold Core.analysisStep
      by_cases hq : filename ∈ st.analysisQueue
      · rw [if_pos hq]
        refine Or.inl (mono_map_case ?_ r hr)
        intro q
        by_cases hfn : q.filename = filename
        · rw [if_pos hfn]
          cases result with
          | some a => exact ⟨rfl, rfl, Or.inl rfl⟩
          | none => exact ⟨rfl, rfl, Or.inl rfl⟩
        · rw [if_neg hfn]
          exact ⟨rfl, rfl, Or.inl rfl⟩
      · rw [if_neg hq]
        exact Or.inl ⟨r, hr, rfl, rfl, Or.inl rfl⟩
    | delete owner filename st2 hok =>
      cases hb : st.records.any (Core.hasKey owner filename) with
      | false => simp [Core.deleteFile, hb] at hok
      | true =>
        simp only [Core.deleteFile, hb, if_true, Except.ok.injEq] at hok
        subst hok
        by_cases hk : Core.hasKey owner filename r = true
        · refine Or.inr ?_
          rintro r' hr' ⟨ho, hf⟩
          have hk' := (List.mem_filter.mp hr').2
          have hkey : Core.hasKey owner filename r' = true := by
            have hr2 := of_decide_eq_true hk
            simp [Core.hasKey, ho, hf, hr2.1, hr2.2]
          rw [hkey] at hk'
          simp at hk'
        · refine Or.inl ⟨r, ?_, rfl, rfl, Or.inl rfl⟩
          refine List.mem_filter.mpr ⟨hr, ?_⟩
          simp [hk]
    | cleanup filename success =>
      refine Or.inl ⟨r, ?_, rfl, rfl, Or.inl rfl⟩
      rw [records_cleanupStep]
      exact hr
  · intro st owner filename size ctype now primary st' r hok
    cases hb : st.records.any (Core.hasKey owner filename) with
    | true => simp [Core.ingest, hb] at hok
    | false =>
      simp only [Core.ingest, hb, Bool.false_eq_true, if_false,
        Except.ok.injEq, Prod.mk.injEq] at hok
      obtain ⟨-, h2⟩ := hok
      rw [← h2]
  · intro st owner filename virus size ctype now primary st' r hok
    cases hb : st.records.any (Core.hasKey owner filename) with
    | true => simp [Core.ingest, hb] at hok
    | false =>
      simp only [Core.ingest, hb, Bool.false_eq_true, if_false,
        Except.ok.injEq, Prod.mk.injEq] at hok
      obtain ⟨-, h2⟩ := hok
      rw [← h2]
      rfl

/-- C4: the AI-analysis affordances read only the filename and the analysis
fields, never the status — so they are unchanged by any status, and offered for
an AI-eligible infected record without an analysis; and the queue's enqueue and
processing never consult the storage status, so an analysis of a record runs to
completion whatever its status, infected included. -/
theorem analysis_not_blocked_by_infection :
    (∀ (f : Client.ClientFile) (s : Option String),
        Client.modalShowsAnalyzeButton { f with status := s } =
          Client.modalShowsAnalyzeButton f) ∧
    (∀ (f : Client.ClientFile) (s : Option String),
        Client.filesListShowsAIButton { f with status := s } =
          Client.filesListShowsAIButton f) ∧
    (∀ f : Client.ClientFile, Client.clientStatusInfected f = true →
        Client.isFileTypeSupportedForAI f.filename = true →
        f.ai_analysis = none →
        Client.modalShowsAnalyzeButton f = true ∧
        Client.filesListShowsAIButton f = true) ∧
    (∀ (st : Core.CoreState) (filename : String) (r : Core.FileRecord),
        r ∈ st.records → r.filename = filename →
        filename ∈ (Core.enqueueAnalysis st filename).analysisQueue) ∧
    (∀ (st : Core.CoreState) (filename : String) (a : Core.AiResult)
        (now : Int) (r : Core.FileRecord),
        r ∈ st.records → r.filename = filename → filename ∈ st.analysisQueue →
        { r with aiAnalysis := some { a with analysisDate := now },
                 aiAnalysisStatus := Core.AiStatus.completed } ∈
          (Core.analysisStep st filename (some a) now).records) := by
  refine ⟨?_, ?_, ?_, ?_, ?_⟩
  · intro f s
    rfl
  · intro f s
    rfl
  · intro f _ hsupp hnone
    constructor
    · simp [Client.modalShowsAnalyzeButton, Client.modalShowsAIAnalysis,
        hsupp, hnone]
    · simp [Client.filesListShowsAIButton, hsupp, hnone]
  · intro st filename r hr hfn
    unfold Core.enqueueAnalysis
    by_cases hq : filename ∈ st.analysisQueue
    · rw [if_pos hq]
      exact hq
    · rw [if_neg hq]
      have hany : st.records.any (fun q => q.filename = filename) = true := by
        refine List.any_eq_true.mpr ⟨r, hr, ?_⟩
        exact decide_eq_true hfn
      rw [if_pos hany]
      exact List.mem_cons_self _ _
  · intro st filename a now r hr hfn hq
    unfold Core.analysisStep
    rw [if_pos hq]
    have hmem := List.mem_map_of_mem
      (fun q => if q.filename = filename then
          { q with aiAnalysis := some { a with analysisDate := now },
                   aiAnalysisStatus := Core.AiStatus.completed }
        else q) hr
    simp only [if_pos hfn] at hmem
    exact hmem
